import Mathlib

/-!
Verification of the patch-extraction pipeline in `src/lib_hdfs/into_record.py`.

The embedding models:
* a swath (`Swath`) as a height x width x channels array of exact rationals
  (idealising numpy float32 samples);
* `gen_patches` (normalisation statistics, candidate-coordinate grid, the
  cloud/information filter `has_clouds`, whitening normalisation and the NaN
  guard).  Two aspects of the source that are external to the repository are
  passed as parameters:
  - `stdFn` stands for numpy's per-channel standard deviation
    `swath.std(axis=(0,1))`.  Its value is the square root of `variance`,
    which is irrational in general, so it is kept abstract; theorems that
    depend on it only assume that it vanishes exactly on zero-variance
    (constant) channels, which the real square root does.
  - `perm` stands for `np.random.shuffle`; theorems about it only assume
    that it permutes the candidate list.
  Division by a zero standard deviation of an all-equal channel produces the
  float NaN; this is modelled by `whiten` returning `none`.
* `gen_swaths` with the format readers (gdal / pyhdf, external collaborators)
  abstracted into a `read` function returning `Except`, and the optional
  `cv2.resize` as an abstract `resize : Option (Swath → Swath)`;
* `write_patches` as a fold over the enumerated patch stream whose state is
  (already superseded shards, currently open shard), mirroring the mutable
  `TFRecordWriter` handle that is replaced whenever `i % patches_per_record == 0`;
  a shard is identified by the pair (worker rank, shard index), standing for
  the file name "rank-index.tfrecord";
* the `__main__` round-robin partition (`assign_files`) and the empty-list
  check (`check_fnames`, modelling the `ValueError` raised when a worker's
  file list is empty).
-/

/-- A swath: a three-dimensional (height x width x channels) array of pixel
samples, as produced by `gen_swaths` for one input file.  Pixel samples are
modelled as exact rationals in place of numpy floating-point values. -/
structure Swath where
  H : Nat
  W : Nat
  C : Nat
  data : Nat → Nat → Nat → ℚ

/-- All pixel values of channel `c` of a swath in row-major order: the
flattening of `swath[:, :, c]` that `swath.mean(axis=(0, 1))` and
`swath.std(axis=(0, 1))` range over in `gen_patches`. -/
def channelList (s : Swath) (c : Nat) : List ℚ :=
  (List.range s.H).flatMap (fun i => (List.range s.W).map (fun j => s.data i j c))

/-- Arithmetic mean of a list of samples: one channel of
`swath.mean(axis=(0, 1))` in `gen_patches`. -/
def qmean (l : List ℚ) : ℚ := l.sum / (l.length : ℚ)

/-- Population variance of a list of samples: the square of one channel of
`swath.std(axis=(0, 1))` (numpy default ddof = 0). -/
def variance (l : List ℚ) : ℚ :=
  ((l.map (fun v => (v - qmean l) ^ 2)).sum) / (l.length : ℚ)

/-- The pixel values of channel `c` of the patch sliced at top-left corner
`(x, y)`: the flattening of `swath[x : x + ph, y : y + pw][:, :, c]`. -/
def patchChannel (s : Swath) (x y ph pw c : Nat) : List ℚ :=
  (List.range ph).flatMap (fun i => (List.range pw).map (fun j => s.data (x + i) (y + j) c))

/-- Count of the most frequent pixel value of one channel of a patch:
`max(np.unique(patch[:, :, c], return_counts=True)[1])` (the `max_uniq`
lambda in `gen_patches`); `0` for an empty channel. -/
def max_uniq (ch : List ℚ) : Nat :=
  (ch.map (fun v => ch.count v)).foldr max 0

/-- The cloud/information-content filter of `gen_patches`:
`has_clouds = any(max_uniq(c) < threshold for c in range(channels))`.
The patch is accepted exactly when this is `true`. -/
def has_clouds (channels : List (List ℚ)) (threshold : ℚ) : Bool :=
  channels.any (fun ch => decide ((max_uniq ch : ℚ) < threshold))

/-- Modelled from the spec: the acceptance predicate asserted by the
specification, namely that the most-frequent-value count is below the
threshold for every channel.  This definition follows the spec's words and is
compared against the source's `has_clouds` (which uses `any`, not `all`). -/
def spec_filter_accepts (channels : List (List ℚ)) (threshold : ℚ) : Bool :=
  channels.all (fun ch => decide ((max_uniq ch : ℚ) < threshold))

/-- Whitening normalisation of one sample: `(v - mean) / std`.  When the
standard deviation of the channel is zero the channel is constant, the
numerator is zero, and float evaluation of `0.0 / 0.0` yields NaN; this is
modelled by `none`. -/
def whiten (v mean std : ℚ) : Option ℚ :=
  if std = 0 then none else some ((v - mean) / std)

/-- The normalised patch `(patch.astype(np.float32) - mean) / std` of
`gen_patches`, channel-major: entry `c` is channel `c` of the sliced patch
with the whitening normalisation applied using the swath-level statistics. -/
def normPatch (stdFn : List ℚ → ℚ) (s : Swath) (x y ph pw : Nat) :
    List (List (Option ℚ)) :=
  (List.range s.C).map (fun c =>
    (patchChannel s x y ph pw c).map (fun v =>
      whiten v (qmean (channelList s c)) (stdFn (channelList s c))))

/-- NaN test on a normalised patch: `np.isnan(patch).any()`. -/
def hasNan (p : List (List (Option ℚ))) : Bool :=
  p.any (fun ch => ch.any (fun v => v.isNone))

/-- The candidate top-left coordinates built by `gen_patches` before
shuffling: `x` ranges over `range(0, max_x, stride_x)`, `y` over
`range(0, max_y, stride_y)`, and `(x, y)` is kept exactly when
`x + shape_x < max_x and y + shape_y < max_y` (strict inequalities). -/
def patch_coords (H W ph pw sx sy : Nat) : List (Nat × Nat) :=
  ((List.range ((H + sx - 1) / sx)).map (fun i => i * sx)).flatMap (fun x =>
    ((List.range ((W + sy - 1) / sy)).map (fun j => j * sy)).flatMap (fun y =>
      if x + ph < H ∧ y + pw < W then [(x, y)] else []))

/-- The per-coordinate body of the extraction loop of `gen_patches`: slice
the patch, apply the cloud filter with
`threshold = shape_x * shape_y * 0.5`, normalise, and drop the patch when the
normalised values contain a NaN.  Returns the normalised patch when the
coordinate survives both filters. -/
def processPatch (stdFn : List ℚ → ℚ) (s : Swath) (shape : Nat × Nat)
    (xy : Nat × Nat) : Option (List (List (Option ℚ))) :=
  let threshold : ℚ := ((shape.1 * shape.2 : Nat) : ℚ) * (1 / 2)
  if has_clouds
      ((List.range s.C).map (fun c => patchChannel s xy.1 xy.2 shape.1 shape.2 c))
      threshold then
    let p := normPatch stdFn s xy.1 xy.2 shape.1 shape.2
    if hasNan p then none else some p
  else none

/-- The `gen_patches` generator: for each swath, compute the candidate
coordinates, shuffle them (`perm` models `np.random.shuffle`), and yield
`(filename, coordinate, normalised patch)` for every accepted coordinate, in
file order. -/
def gen_patches (stdFn : List ℚ → ℚ) (perm : List (Nat × Nat) → List (Nat × Nat))
    (swaths : List (String × Swath)) (shape strides : Nat × Nat) :
    List (String × (Nat × Nat) × List (List (Option ℚ))) :=
  swaths.flatMap (fun fs =>
    (perm (patch_coords fs.2.H fs.2.W shape.1 shape.2 strides.1 strides.2)).filterMap
      (fun xy => (processPatch stdFn fs.2 shape xy).map (fun p => (fs.1, xy, p))))

/-- The `gen_swaths` generator: attempt to read each file; on a read
failure (`except Exception ... continue`) skip the file and move on; on
success apply the optional resize and yield `(filename, swath)`. -/
def gen_swaths (read : String → Except String Swath)
    (resize : Option (Swath → Swath)) : List String → List (String × Swath)
  | [] => []
  | t :: rest =>
    match read t with
    | Except.error _ => gen_swaths read resize rest
    | Except.ok s =>
      (t, match resize with | none => s | some f => f s) :: gen_swaths read resize rest

/-- The round-robin work partition of `__main__`: keep the files at
positions `i` of the sorted list with `i % size == rank`, in order. -/
def assign_files {α : Type} (files : List α) (size rank : Nat) : List α :=
  (files.enum.filter (fun p => p.1 % size == rank)).map Prod.snd

/-- The startup check of `__main__`: `if not fnames: raise ValueError(...)`,
applied to this worker's assigned file list. -/
def check_fnames {α : Type} (fnames : List α) : Except String (List α) :=
  if fnames.isEmpty then Except.error "source_glob does not match any files"
  else Except.ok fnames

/-- One iteration of the `write_patches` loop on the sharder state
(list of superseded shards, currently open shard): when the running count
satisfies `i % patches_per_record == 0` a fresh shard named
`(rank, i // patches_per_record)` is opened (superseding the current one),
otherwise the patch is appended to the currently open shard. -/
def write_step {α : Type} (rank K : Nat)
    (st : List ((Nat × Nat) × List α) × Option ((Nat × Nat) × List α))
    (ip : Nat × α) :
    List ((Nat × Nat) × List α) × Option ((Nat × Nat) × List α) :=
  if ip.1 % K = 0 then
    (st.1 ++ st.2.toList, some ((rank, ip.1 / K), [ip.2]))
  else
    (st.1, st.2.map (fun sh => (sh.1, sh.2 ++ [ip.2])))

/-- Collect the shards of a final sharder state: the superseded shards
followed by the shard still open when the stream ended. -/
def flush {α : Type}
    (st : List ((Nat × Nat) × List α) × Option ((Nat × Nat) × List α)) :
    List ((Nat × Nat) × List α) :=
  st.1 ++ st.2.toList

/-- The `write_patches` sharder: fold the enumerated patch stream through
`write_step` starting from no open shard, and collect the resulting shards.
Each shard `((rank, k), contents)` stands for the file `rank-k.tfrecord`
holding `contents`. -/
def write_patches {α : Type} (rank K : Nat) (ps : List α) :
    List ((Nat × Nat) × List α) :=
  flush (ps.enum.foldl (write_step rank K) ([], none))

/-! Helper lemmas about the filter. -/

/-- Folding `max` over a non-empty replicated list gives the replicated value. -/
theorem foldr_max_replicate (k c : Nat) (hk : 0 < k) :
    (List.replicate k c).foldr max 0 = c := by
  induction k with
  | zero => omega
  | succ m ih =>
    rw [List.replicate_succ, List.foldr_cons]
    cases Nat.eq_zero_or_pos m with
    | inl h => subst h; simp
    | inr h => rw [ih h]; exact max_self c

/-- The most-frequent-value count of a constant channel is its length. -/
theorem max_uniq_replicate (n : Nat) (v : ℚ) :
    max_uniq (List.replicate n v) = n := by
  cases n with
  | zero => rfl
  | succ m =>
    unfold max_uniq
    rw [List.map_congr_left (g := fun _ => m + 1)
      (fun u hu => by
        have huv : u = v := List.eq_of_mem_replicate hu
        subst huv
        exact List.count_replicate_self u (m + 1))]
    rw [List.map_const']
    rw [List.length_replicate]
    exact foldr_max_replicate (m + 1) (m + 1) (Nat.succ_pos m)

/-- The most-frequent-value count of a duplicate-free non-empty channel is 1. -/
theorem max_uniq_nodup (l : List ℚ) (hnd : l.Nodup) (hne : l ≠ []) :
    max_uniq l = 1 := by
  unfold max_uniq
  rw [List.map_congr_left (g := fun _ => 1)
    (fun u hu => List.count_eq_one_of_mem hnd hu)]
  rw [List.map_const']
  exact foldr_max_replicate l.length 1 (List.length_pos.mpr hne)

/-! C1.  The cloud/information-content filter.  The specification asserts
acceptance exactly when every channel is below the 50 percent threshold; the
source computes `any(max_uniq(c) < threshold ...)`, accepting as soon as one
channel is below the threshold, in agreement with its own comment
("Filter away patches ... if every channel is over 50 percent 1 value"). -/

/-- C1 counterexample: a 2x2 patch whose first channel is a single repeated
value (covering 100 percent of its pixels) and whose second channel has four
distinct values.  The source filter `has_clouds` accepts it, while the
specification's every-channel predicate rejects it, refuting the claimed
equivalence and in particular the claim that a patch with a constant channel
is always rejected by this filter. -/
theorem has_clouds_any_vs_all_cex :
    has_clouds [[5, 5, 5, 5], [0, 1, 2, 3]] (((2 * 2 : Nat) : ℚ) * (1 / 2)) = true
    ∧ spec_filter_accepts [[5, 5, 5, 5], [0, 1, 2, 3]]
        (((2 * 2 : Nat) : ℚ) * (1 / 2)) = false := by
  have hthr : (((2 * 2 : Nat) : ℚ) * (1 / 2)) = 2 := by norm_num
  rw [hthr]
  constructor
  · decide
  · decide

/-- C1 amended: the filter accepts exactly when at least one channel's
most-frequent-value count is strictly below the threshold; and a patch in
which every channel is a single repeated value (length `n`, threshold
`n * 0.5`) is rejected. -/
theorem has_clouds_iff (channels : List (List ℚ)) (threshold : ℚ) :
    (has_clouds channels threshold = true ↔
      ∃ ch ∈ channels, (max_uniq ch : ℚ) < threshold)
    ∧ (∀ n : Nat, (∀ ch ∈ channels, ∃ v : ℚ, ch = List.replicate n v) →
        has_clouds channels (((n : Nat) : ℚ) * (1 / 2)) = false) := by
  constructor
  · unfold has_clouds
    rw [List.any_eq_true]
    constructor
    · rintro ⟨ch, hch, hdec⟩
      exact ⟨ch, hch, of_decide_eq_true hdec⟩
    · rintro ⟨ch, hch, hlt⟩
      exact ⟨ch, hch, decide_eq_true hlt⟩
  · intro n hconst
    unfold has_clouds
    rw [List.any_eq_false]
    intro ch hch
    obtain ⟨v, rfl⟩ := hconst ch hch
    rw [max_uniq_replicate]
    simp only [decide_eq_true_eq]
    intro hlt
    have hn : (0 : ℚ) ≤ (n : ℚ) := Nat.cast_nonneg n
    linarith

/-- C1 amended witness: the source filter accepts the counterexample patch
because its second channel has four distinct values, and rejects a patch
whose every channel is constant. -/
theorem has_clouds_iff_witness :
    (has_clouds [[5, 5, 5, 5], [0, 1, 2, 3]] 2 = true ↔
      ∃ ch ∈ [[(5 : ℚ), 5, 5, 5], [0, 1, 2, 3]], (max_uniq ch : ℚ) < 2)
    ∧ has_clouds [[(7 : ℚ), 7, 7, 7]] (((4 : Nat) : ℚ) * (1 / 2)) = false :=
  ⟨(has_clouds_iff [[5, 5, 5, 5], [0, 1, 2, 3]] 2).1,
   (has_clouds_iff [[(7 : ℚ), 7, 7, 7]] 2).2 4
     (fun ch hch => ⟨7, by rw [List.mem_singleton] at hch; rw [hch]; rfl⟩)⟩

/-! C2.  The round-robin work partition. -/

/-- C2: for a positive worker count the per-rank index sets are pairwise
disjoint, every position of the file list belongs to exactly one rank below
the worker count, and each rank's assigned files form a subsequence of the
input list (files kept in index order).  The assignment is by construction a
pure function of the list, the worker count and the rank. -/
theorem assign_files_partition {α : Type} (files : List α) (S : Nat) (hS : 0 < S) :
    (∀ r₁ r₂ : Nat, r₁ ≠ r₂ →
        ∀ p : Nat × α, p ∈ files.enum.filter (fun q => q.1 % S == r₁) →
          p ∉ files.enum.filter (fun q => q.1 % S == r₂))
    ∧ (∀ p : Nat × α, p ∈ files.enum →
        ∃! r : Nat, r < S ∧ p ∈ files.enum.filter (fun q => q.1 % S == r))
    ∧ (∀ r : Nat, (assign_files files S r).Sublist files) := by
  refine ⟨?_, ?_, ?_⟩
  · intro r₁ r₂ hne p hp₁ hp₂
    rw [List.mem_filter] at hp₁ hp₂
    have h₁ : p.1 % S = r₁ := by simpa using hp₁.2
    have h₂ : p.1 % S = r₂ := by simpa using hp₂.2
    exact hne (h₁ ▸ h₂)
  · intro p hp
    refine ⟨p.1 % S, ⟨Nat.mod_lt _ hS, List.mem_filter.mpr ⟨hp, by simp⟩⟩, ?_⟩
    intro r hr
    have h := List.mem_filter.mp hr.2
    have h2 : p.1 % S = r := by simpa using h.2
    exact h2.symm
  · intro r
    have h1 : (files.enum.filter (fun q => q.1 % S == r)).Sublist files.enum :=
      List.filter_sublist _
    have h2 := List.Sublist.map Prod.snd h1
    rw [List.enum_map_snd] at h2
    exact h2

/-- C2 witness: the partition property at a concrete list and two workers. -/
theorem assign_files_partition_witness :
    (∀ r₁ r₂ : Nat, r₁ ≠ r₂ →
        ∀ p : Nat × Nat, p ∈ [10, 20, 30].enum.filter (fun q => q.1 % 2 == r₁) →
          p ∉ [10, 20, 30].enum.filter (fun q => q.1 % 2 == r₂))
    ∧ (∀ p : Nat × Nat, p ∈ [10, 20, 30].enum →
        ∃! r : Nat, r < 2 ∧ p ∈ [10, 20, 30].enum.filter (fun q => q.1 % 2 == r))
    ∧ (∀ r : Nat, (assign_files [10, 20, 30] 2 r).Sublist [10, 20, 30]) :=
  assign_files_partition [10, 20, 30] 2 (by decide)

/-! C3.  The candidate-coordinate grid and its strict boundary. -/

/-- C3: for positive strides, `(x, y)` is a candidate coordinate exactly when
`x` is a multiple of the x stride, `y` a multiple of the y stride, and the
strict boundary conditions `x + ph < H` and `y + pw < W` hold; in particular
every emitted coordinate satisfies the strict inequalities, and the final
offset with `x + ph = H` or `y + pw = W` is excluded. -/
theorem patch_coords_mem_iff (H W ph pw sx sy : Nat) (hsx : 0 < sx)
    (hsy : 0 < sy) (x y : Nat) :
    (x, y) ∈ patch_coords H W ph pw sx sy ↔
      sx ∣ x ∧ sy ∣ y ∧ x + ph < H ∧ y + pw < W := by
  unfold patch_coords
  simp only [List.mem_flatMap, List.mem_map, List.mem_range]
  constructor
  · rintro ⟨x', ⟨i, hi, rfl⟩, y', ⟨j, hj, rfl⟩, hmem⟩
    by_cases hc : i * sx + ph < H ∧ j * sy + pw < W
    · rw [if_pos hc] at hmem
      rw [List.mem_singleton] at hmem
      obtain ⟨rfl, rfl⟩ := Prod.mk.injEq .. ▸ hmem
      exact ⟨Dvd.intro_left i rfl, Dvd.intro_left j rfl, hc.1, hc.2⟩
    · rw [if_neg hc] at hmem
      exact absurd hmem (List.not_mem_nil _)
  · rintro ⟨⟨i, rfl⟩, ⟨j, rfl⟩, h1, h2⟩
    have hxH : sx * i < H := lt_of_le_of_lt (Nat.le_add_right _ _) h1
    have hyW : sy * j < W := lt_of_le_of_lt (Nat.le_add_right _ _) h2
    have hibound : i < (H + sx - 1) / sx := by
      rw [Nat.lt_iff_add_one_le, Nat.le_div_iff_mul_le hsx, add_mul, one_mul]
      have : i * sx = sx * i := Nat.mul_comm i sx
      omega
    have hjbound : j < (W + sy - 1) / sy := by
      rw [Nat.lt_iff_add_one_le, Nat.le_div_iff_mul_le hsy, add_mul, one_mul]
      have : j * sy = sy * j := Nat.mul_comm j sy
      omega
    refine ⟨sx * i, ⟨i, hibound, Nat.mul_comm i sx⟩,
            sy * j, ⟨j, hjbound, Nat.mul_comm j sy⟩, ?_⟩
    rw [if_pos ⟨h1, h2⟩]
    exact List.mem_singleton.mpr rfl

/-- C3 witness: the membership characterisation at the concrete grid of the
end-to-end scenario, showing `(64, 128)` is a candidate for a 256x256 swath
with 64x64 patches and strides. -/
theorem patch_coords_mem_iff_witness :
    ((64, 128) ∈ patch_coords 256 256 64 64 64 64 ↔
      64 ∣ 64 ∧ 64 ∣ 128 ∧ 64 + 64 < 256 ∧ 128 + 64 < 256)
    ∧ (64, 128) ∈ patch_coords 256 256 64 64 64 64 :=
  ⟨patch_coords_mem_iff 256 256 64 64 64 64 (by decide) (by decide) 64 128,
   (patch_coords_mem_iff 256 256 64 64 64 64 (by decide) (by decide) 64 128).mpr
     ⟨⟨1, by decide⟩, ⟨2, by decide⟩, by decide, by decide⟩⟩

/-! C7.  Read failures are skipped, the loop continues. -/

/-- C7: the swath generator yields exactly the successfully read files, in
assignment order, with failed reads dropped; a single failing file never
aborts the traversal of the remaining list. -/
theorem gen_swaths_skip_and_continue (read : String → Except String Swath)
    (resize : Option (Swath → Swath)) (fnames : List String) :
    gen_swaths read resize fnames
      = fnames.filterMap (fun t =>
          match read t with
          | Except.error _ => none
          | Except.ok s => some (t, match resize with | none => s | some f => f s)) := by
  induction fnames with
  | nil => rfl
  | cons t rest ih =>
    cases h : read t with
    | error e => simp [gen_swaths, List.filterMap_cons, h, ih]
    | ok s => simp [gen_swaths, List.filterMap_cons, h, ih]

/-! C9.  A worker whose assigned subset is empty aborts at startup. -/

/-- C9: when the glob matched a nonzero number of files but this worker's
rank is at least the file count (with rank below the worker count), the
round-robin subset is empty and the startup check raises the error, aborting
the worker. -/
theorem empty_rank_aborts {α : Type} (files : List α) (S r : Nat)
    (hglob : files ≠ []) (hrS : r < S) (hrL : files.length ≤ r) :
    assign_files files S r = [] ∧
      check_fnames (assign_files files S r)
        = Except.error "source_glob does not match any files" := by
  have hempty : assign_files files S r = [] := by
    unfold assign_files
    have hfil : files.enum.filter (fun p => p.1 % S == r) = [] := by
      rw [List.filter_eq_nil_iff]
      rintro ⟨i, a⟩ hp
      rw [List.enum_eq_zip_range] at hp
      have hi : i ∈ List.range files.length := (List.of_mem_zip hp).1
      rw [List.mem_range] at hi
      have hiS : i < S := lt_of_lt_of_le hi (le_of_lt (lt_of_le_of_lt hrL hrS))
      have : i % S = i := Nat.mod_eq_of_lt hiS
      simp only [beq_iff_eq]
      omega
    rw [hfil]
    rfl
  exact ⟨hempty, by rw [hempty]; rfl⟩

/-- C9 witness: one file, two workers; the rank-1 worker gets no files and
the startup check fails. -/
theorem empty_rank_aborts_witness :
    assign_files [10] 2 1 = [] ∧
      check_fnames (assign_files [10] 2 1)
        = Except.error "source_glob does not match any files" :=
  empty_rank_aborts [10] 2 1 (by decide) (by decide) (by decide)

/-! C10.  An empty patch stream creates no shard. -/

/-- C10: when the patch stream is empty the sharder loop body never runs, so
no shard at all is produced (no empty zeroth shard). -/
theorem write_patches_empty_stream {α : Type} (rank K : Nat) (hK : 0 < K) :
    write_patches rank K ([] : List α) = [] := rfl

/-- C10 witness: concrete rank and capacity. -/
theorem write_patches_empty_stream_witness :
    write_patches 0 3 ([] : List Nat) = [] :=
  write_patches_empty_stream 0 3 (by decide)

/-! C4.  The sharder: closed form of the fold. -/

/-- Folding a stretch of the stream in which the running count never hits a
multiple of `patches_per_record` appends every patch to the currently open
shard and opens no new shard. -/
theorem write_foldl_no_open {α : Type} (rank K : Nat) (l : List α) :
    ∀ (i : Nat) (closed : List ((Nat × Nat) × List α))
      (cur : Option ((Nat × Nat) × List α)),
      (∀ t, t < l.length → (i + t) % K ≠ 0) →
      (List.enumFrom i l).foldl (write_step rank K) (closed, cur)
        = (closed, cur.map (fun sh => (sh.1, sh.2 ++ l))) := by
  induction l with
  | nil =>
    intro i closed cur _
    cases cur <;> simp [List.enumFrom]
  | cons a l ih =>
    intro i closed cur h
    have h0 : i % K ≠ 0 := by
      have := h 0 (Nat.succ_pos _)
      simpa using this
    have hstep : write_step rank K (closed, cur) (i, a)
        = (closed, cur.map (fun sh => (sh.1, sh.2 ++ [a]))) := by
      unfold write_step
      rw [if_neg h0]
    rw [List.enumFrom_cons, List.foldl_cons, hstep]
    rw [ih (i + 1) closed _ (fun t ht => by
      have ht' := h (t + 1) (by simpa using Nat.succ_lt_succ ht)
      have : i + (t + 1) = i + 1 + t := by omega
      rw [this] at ht'
      exact ht')]
    cases cur with
    | none => rfl
    | some sh => simp

/-- Closed form of the sharder fold: starting a fresh shard boundary at
running count `j * K`, the flushed result extends the accumulated state by
the chunks of `K` consecutive patches, the `t`-th opened shard being named
`(rank, j + t)`. -/
theorem write_foldl_closed_form {α : Type} (rank K : Nat) (hK : 0 < K) :
    ∀ (n : Nat) (l : List α), l.length = n →
      ∀ (j : Nat) (closed : List ((Nat × Nat) × List α))
        (cur : Option ((Nat × Nat) × List α)),
      flush ((List.enumFrom (j * K) l).foldl (write_step rank K) (closed, cur))
        = closed ++ cur.toList
          ++ (List.range ((n + K - 1) / K)).map
              (fun t => ((rank, j + t), (l.drop (t * K)).take K)) := by
  intro n
  induction n using Nat.strong_induction_on with
  | _ n ih =>
    intro l hl j closed cur
    match l, hl with
    | [], hl =>
      have hn : n = 0 := by simpa using hl.symm
      subst hn
      have hc : (0 + K - 1) / K = 0 := Nat.div_eq_of_lt (by omega)
      rw [hc]
      simp [flush, List.enumFrom]
    | a :: l', hl =>
      have hn : n = l'.length + 1 := by simpa using hl.symm
      subst hn
      rw [List.enumFrom_cons, List.foldl_cons]
      have hstep : write_step rank K (closed, cur) (j * K, a)
          = (closed ++ cur.toList, some ((rank, j), [a])) := by
        unfold write_step
        rw [if_pos (Nat.mul_mod_left j K)]
        rw [Nat.mul_div_cancel j hK]
      rw [hstep]
      by_cases hsmall : l'.length ≤ K - 1
      · -- the whole tail fits in the shard just opened
        have hfill := write_foldl_no_open rank K l' (j * K + 1)
          (closed ++ cur.toList) (some ((rank, j), [a]))
          (fun t ht => by
            have h1t : 1 + t < K := by omega
            have : j * K + 1 + t = (1 + t) + j * K := by omega
            rw [this, Nat.add_mul_mod_self_right, Nat.mod_eq_of_lt h1t]
            omega)
        rw [hfill]
        have hc : (l'.length + 1 + K - 1) / K = 1 := by
          have he : l'.length + 1 + K - 1 = l'.length + K := by omega
          rw [he, Nat.add_div_right _ hK, Nat.div_eq_of_lt (by omega)]
        rw [hc]
        have htake : (a :: l').take K = a :: l' :=
          List.take_of_length_le (by simpa using Nat.lt_of_le_of_lt hsmall (by omega))
        have hr1 : List.range 1 = [0] := rfl
        rw [hr1]
        simp [flush, htake]
      · -- the opened shard fills up after K - 1 more patches; recurse
        push_neg at hsmall
        have hlen_take : (l'.take (K - 1)).length = K - 1 := by
          rw [List.length_take]
          omega
        have hoff : j * K + 1 + (l'.take (K - 1)).length = (j + 1) * K := by
          rw [hlen_take, add_mul, one_mul]
          omega
        have hsplit : List.enumFrom (j * K + 1) l'
            = List.enumFrom (j * K + 1) (l'.take (K - 1))
              ++ List.enumFrom ((j + 1) * K) (l'.drop (K - 1)) := by
          conv_lhs => rw [← List.take_append_drop (K - 1) l']
          rw [List.enumFrom_append, hoff]
        rw [hsplit, List.foldl_append]
        have hfill := write_foldl_no_open rank K (l'.take (K - 1)) (j * K + 1)
          (closed ++ cur.toList) (some ((rank, j), [a]))
          (fun t ht => by
            rw [hlen_take] at ht
            have h1t : 1 + t < K := by omega
            have : j * K + 1 + t = (1 + t) + j * K := by omega
            rw [this, Nat.add_mul_mod_self_right, Nat.mod_eq_of_lt h1t]
            omega)
        rw [hfill]
        simp only [Option.map_some', List.singleton_append]
        have hlt : (l'.drop (K - 1)).length < l'.length + 1 := by
          rw [List.length_drop]
          omega
        rw [ih (l'.drop (K - 1)).length hlt (l'.drop (K - 1)) rfl (j + 1)
          (closed ++ cur.toList)
          (some ((rank, j), a :: l'.take (K - 1)))]
        -- arithmetic on the shard count
        have hcount : (l'.length + 1 + K - 1) / K
            = ((l'.drop (K - 1)).length + K - 1) / K + 1 := by
          rw [List.length_drop]
          have he : l'.length + 1 + K - 1 = (l'.length - (K - 1) + K - 1) + K := by
            omega
          rw [he, Nat.add_div_right _ hK]
        rw [hcount, List.range_succ_eq_map, List.map_cons, List.map_map]
        have htakeK : List.take K (a :: l') = a :: List.take (K - 1) l' := by
          cases K with
          | zero => omega
          | succ m => rw [List.take_succ_cons, Nat.succ_sub_one]
        have hhead : ((rank, j + 0), ((a :: l').drop (0 * K)).take K)
            = ((rank, j), a :: l'.take (K - 1)) := by
          rw [Nat.zero_mul, List.drop_zero, Nat.add_zero, htakeK]
        have htail : ∀ t ∈ List.range (((l'.drop (K - 1)).length + K - 1) / K),
            ((fun t => ((rank, j + t), ((a :: l').drop (t * K)).take K)) ∘ Nat.succ) t
              = ((rank, j + 1 + t), ((l'.drop (K - 1)).drop (t * K)).take K) := by
          intro t _
          have h1 : j + Nat.succ t = j + 1 + t := by omega
          have h2 : (a :: l').drop (Nat.succ t * K)
              = (l'.drop (K - 1)).drop (t * K) := by
            rw [List.drop_drop]
            have h3 : Nat.succ t * K = (K - 1 + t * K) + 1 := by
              rw [Nat.succ_mul]
              omega
            rw [h3, List.drop_succ_cons]
          simp only [Function.comp_apply, h1, h2]
        rw [List.map_congr_left htail]
        simp only [flush, Option.toList_some, hhead]
        simp [htakeK]

/-- Closed form of `write_patches`: for a positive shard capacity `K` and a
stream of `N` patches, the shards are exactly the `ceil(N / K)` chunks of `K`
consecutive patches, the `j`-th shard being named `(rank, j)`. -/
theorem write_patches_closed_form {α : Type} (rank K : Nat) (hK : 0 < K)
    (ps : List α) :
    write_patches rank K ps
      = (List.range ((ps.length + K - 1) / K)).map
          (fun j => ((rank, j), (ps.drop (j * K)).take K)) := by
  unfold write_patches
  have henum : ps.enum = List.enumFrom (0 * K) ps := by
    rw [Nat.zero_mul]
    rfl
  rw [henum, write_foldl_closed_form rank K hK ps.length ps rfl 0 [] none]
  simp

/-- C4: for capacity `K > 0` and a stream of `N` patches the sharder
produces exactly `ceil(N / K)` shards; the `j`-th shard (opened exactly when
the running count reached `i = j * K`, a multiple of `K`) is named
`(rank, i / K) = (rank, j)` and holds the `K` patches starting at stream
position `j * K`; every shard but the last holds exactly `K` patches, and
the last holds `N mod K` patches when `N mod K` is nonzero. -/
theorem write_patches_sharding {α : Type} (rank K : Nat) (hK : 0 < K)
    (ps : List α) :
    (write_patches rank K ps).length = (ps.length + K - 1) / K
    ∧ (∀ j, ∀ hj : j < (write_patches rank K ps).length,
        (write_patches rank K ps)[j] = ((rank, j), (ps.drop (j * K)).take K))
    ∧ (∀ j, ∀ hj : j < (write_patches rank K ps).length,
        j + 1 < (write_patches rank K ps).length →
          ((write_patches rank K ps)[j]).2.length = K)
    ∧ (∀ j, ∀ hj : j < (write_patches rank K ps).length,
        j + 1 = (write_patches rank K ps).length → ps.length % K ≠ 0 →
          ((write_patches rank K ps)[j]).2.length = ps.length % K) := by
  have hcf := write_patches_closed_form rank K hK ps
  have hlen : (write_patches rank K ps).length = (ps.length + K - 1) / K := by
    rw [hcf, List.length_map, List.length_range]
  have hget : ∀ j, ∀ hj : j < (write_patches rank K ps).length,
      (write_patches rank K ps)[j] = ((rank, j), (ps.drop (j * K)).take K) := by
    intro j hj
    rw [List.getElem_of_eq hcf]
    simp only [List.getElem_map, List.getElem_range]
  refine ⟨hlen, hget, ?_, ?_⟩
  · intro j hj hjlt
    have hj2 : j + 2 ≤ (ps.length + K - 1) / K := by omega
    have hmul : (j + 2) * K ≤ ps.length + K - 1 :=
      (Nat.le_div_iff_mul_le hK).mp hj2
    have hexp : (j + 2) * K = j * K + 2 * K := by ring
    rw [hexp] at hmul
    rw [hget j hj, List.length_take, List.length_drop]
    omega
  · intro j hj hjlast hmod
    have hqr := Nat.div_add_mod ps.length K
    have hrK : ps.length % K < K := Nat.mod_lt _ hK
    have hexp : (ps.length / K + 1) * K = K * (ps.length / K) + K := by ring
    have hsum : ps.length + K - 1
        = (ps.length % K - 1) + (ps.length / K + 1) * K := by omega
    have hdiv : (ps.length + K - 1) / K = ps.length / K + 1 := by
      rw [hsum, Nat.add_mul_div_right _ _ hK,
        Nat.div_eq_of_lt (by omega), Nat.zero_add]
    have hjq : j = ps.length / K := by omega
    rw [hget j hj, List.length_take, List.length_drop]
    have hjK : j * K = K * (ps.length / K) := by rw [hjq]; ring
    omega

/-- C4 witness: capacity 2 on a stream of three patches gives two shards,
the first full, the second holding the remaining patch. -/
theorem write_patches_sharding_witness :
    write_patches 0 2 [1, 2, 3] = [((0, 0), [1, 2]), ((0, 1), [3])]
    ∧ (write_patches 0 2 ([1, 2, 3] : List Nat)).length
        = (([1, 2, 3] : List Nat).length + 2 - 1) / 2 :=
  ⟨by decide, (write_patches_sharding 0 2 (by decide) [1, 2, 3]).1⟩

/-! C5 and C6.  Normalisation and the NaN guard. -/

/-- Inversion of a successful `processPatch`: the result is the normalised
patch, the cloud filter accepted the raw patch, and the NaN test failed. -/
theorem processPatch_some {stdFn : List ℚ → ℚ} {s : Swath} {shape xy : Nat × Nat}
    {p : List (List (Option ℚ))}
    (h : processPatch stdFn s shape xy = some p) :
    p = normPatch stdFn s xy.1 xy.2 shape.1 shape.2
    ∧ has_clouds
        ((List.range s.C).map (fun c => patchChannel s xy.1 xy.2 shape.1 shape.2 c))
        (((shape.1 * shape.2 : Nat) : ℚ) * (1 / 2)) = true
    ∧ hasNan p = false := by
  unfold processPatch at h
  simp only [] at h
  split at h
  case isTrue hcl =>
    split at h
    case isTrue hnan => exact absurd h (by simp)
    case isFalse hnan =>
      rw [Option.some_inj] at h
      subst h
      exact ⟨rfl, hcl, by simpa using hnan⟩
  case isFalse hcl => exact absurd h (by simp)

/-- Inversion of membership in the output of `gen_patches`: the yielded tuple
comes from some swath of the input with that filename, its coordinate is one
of the shuffled candidates, and the patch survived `processPatch`. -/
theorem gen_patches_mem {stdFn : List ℚ → ℚ}
    {perm : List (Nat × Nat) → List (Nat × Nat)}
    {swaths : List (String × Swath)} {shape strides : Nat × Nat}
    {fname : String} {xy : Nat × Nat} {p : List (List (Option ℚ))}
    (h : (fname, xy, p) ∈ gen_patches stdFn perm swaths shape strides) :
    ∃ s : Swath, (fname, s) ∈ swaths
      ∧ xy ∈ perm (patch_coords s.H s.W shape.1 shape.2 strides.1 strides.2)
      ∧ processPatch stdFn s shape xy = some p := by
  unfold gen_patches at h
  rw [List.mem_flatMap] at h
  obtain ⟨fs, hfs, hmem⟩ := h
  rw [List.mem_filterMap] at hmem
  obtain ⟨xy', hxy', heq⟩ := hmem
  cases hpp : processPatch stdFn fs.2 shape xy' with
  | none => rw [hpp] at heq; exact absurd heq (by simp)
  | some q =>
    rw [hpp, Option.map_some', Option.some_inj, Prod.mk.injEq, Prod.mk.injEq] at heq
    obtain ⟨h1, h2, h3⟩ := heq
    subst h1
    subst h2
    subst h3
    exact ⟨fs.2, by simpa using hfs, hxy', hpp⟩

/-- C5: a normalised patch containing a NaN is never yielded: every patch in
the output of `gen_patches` is NaN-free in every element of every channel. -/
theorem gen_patches_no_nan (stdFn : List ℚ → ℚ)
    (perm : List (Nat × Nat) → List (Nat × Nat))
    (swaths : List (String × Swath)) (shape strides : Nat × Nat)
    (fname : String) (xy : Nat × Nat) (p : List (List (Option ℚ)))
    (h : (fname, xy, p) ∈ gen_patches stdFn perm swaths shape strides) :
    hasNan p = false ∧ ∀ ch ∈ p, ∀ v ∈ ch, v.isSome = true := by
  obtain ⟨s, hs, hxy, hpp⟩ := gen_patches_mem h
  have hn := (processPatch_some hpp).2.2
  refine ⟨hn, ?_⟩
  intro ch hch v hv
  unfold hasNan at hn
  rw [List.any_eq_false] at hn
  have hch' := hn ch hch
  rw [Bool.not_eq_true, List.any_eq_false] at hch'
  have hv' := hch' v hv
  cases v with
  | none => simp at hv'
  | some w => rfl

/-- C6: every yielded patch is the per-channel whitening
`(patch - mean) / std` of the slice of its producing swath, with `mean` and
`std` the per-channel statistics of that whole swath; and every yielded value
`w` of channel `c` satisfies the reconstruction identity
`w * std + mean = original pixel` (the standard deviation is necessarily
nonzero for a yielded value, so the identity is exact). -/
theorem gen_patches_normalization (stdFn : List ℚ → ℚ)
    (perm : List (Nat × Nat) → List (Nat × Nat))
    (swaths : List (String × Swath)) (shape strides : Nat × Nat)
    (fname : String) (xy : Nat × Nat) (p : List (List (Option ℚ)))
    (h : (fname, xy, p) ∈ gen_patches stdFn perm swaths shape strides) :
    ∃ s : Swath, (fname, s) ∈ swaths
      ∧ p = normPatch stdFn s xy.1 xy.2 shape.1 shape.2
      ∧ ∀ (c : Nat) (ch : List (Option ℚ)), p[c]? = some ch →
          ∀ (k : Nat) (w : ℚ), ch[k]? = some (some w) →
            stdFn (channelList s c) ≠ 0
            ∧ ∃ v, (patchChannel s xy.1 xy.2 shape.1 shape.2 c)[k]? = some v
                ∧ w = (v - qmean (channelList s c)) / stdFn (channelList s c)
                ∧ w * stdFn (channelList s c) + qmean (channelList s c) = v := by
  obtain ⟨s, hs, hxy, hpp⟩ := gen_patches_mem h
  obtain ⟨hp, hcl, hnan⟩ := processPatch_some hpp
  refine ⟨s, hs, hp, ?_⟩
  intro c ch hc k w hk
  rw [hp] at hc
  unfold normPatch at hc
  rw [List.getElem?_map] at hc
  cases hcr : (List.range s.C)[c]? with
  | none => rw [hcr] at hc; exact absurd hc (by simp)
  | some c' =>
    rw [hcr, Option.map_some', Option.some_inj] at hc
    obtain ⟨hlt, hval⟩ := List.getElem?_eq_some_iff.mp hcr
    rw [List.getElem_range] at hval
    subst hval
    rw [← hc, List.getElem?_map] at hk
    cases hkr : (patchChannel s xy.1 xy.2 shape.1 shape.2 c)[k]? with
    | none => rw [hkr] at hk; exact absurd hk (by simp)
    | some v =>
      rw [hkr, Option.map_some', Option.some_inj] at hk
      unfold whiten at hk
      split at hk
      case isTrue hstd => exact absurd hk (by simp)
      case isFalse hstd =>
        rw [Option.some_inj] at hk
        refine ⟨hstd, v, rfl, hk.symm, ?_⟩
        rw [← hk, div_mul_cancel₀ _ hstd, sub_add_cancel]

/-- A concrete 3x3 single-channel swath with pairwise distinct pixel values,
used to exercise the pipeline on one accepted patch. -/
def swath3 : Swath := ⟨3, 3, 1, fun i j _ => ((3 * i + j : Nat) : ℚ)⟩

/-- The pipeline evaluated on `swath3` with a 2x2 patch and unit strides: the
single candidate patch (top-left corner (0,0), pixel values 0, 1, 3, 4) is
accepted and whitened with swath mean 4; the instantiation takes `variance`
itself (value 20/3) as the standard-deviation model, which has the same
vanishing behaviour as the real standard deviation. -/
theorem gen_patches_swath3_eval :
    gen_patches variance id [("a", swath3)] (2, 2) (1, 1)
      = [("a", (0, 0),
          [[some (-(3 / 5) : ℚ), some (-(9 / 20)), some (-(3 / 20)), some 0]])] := by
  have hchl : channelList swath3 0 = [0, 1, 2, 3, 4, 5, 6, 7, 8] := by decide
  have hmean : qmean [(0 : ℚ), 1, 2, 3, 4, 5, 6, 7, 8] = 4 := by
    unfold qmean
    norm_num
  have hvar : variance [(0 : ℚ), 1, 2, 3, 4, 5, 6, 7, 8] = 20 / 3 := by
    unfold variance
    rw [hmean]
    norm_num
  have hpc : patchChannel swath3 0 0 2 2 0 = [0, 1, 3, 4] := by decide
  have hnp : normPatch variance swath3 0 0 2 2
      = [[some (-(3 / 5) : ℚ), some (-(9 / 20)), some (-(3 / 20)), some 0]] := by
    unfold normPatch
    have hr1 : List.range swath3.C = [0] := rfl
    rw [hr1, List.map_cons, List.map_nil, hpc, hchl, hmean, hvar]
    unfold whiten
    norm_num
  have hacc : has_clouds ((List.range swath3.C).map
      (fun c => patchChannel swath3 (0, 0).1 (0, 0).2 (2, 2).1 (2, 2).2 c)) 2
      = true := by decide
  have hthr : ((((2, 2) : Nat × Nat).1 * ((2, 2) : Nat × Nat).2 : Nat) : ℚ) * (1 / 2)
      = 2 := by norm_num
  have hnn : hasNan [[some (-(3 / 5) : ℚ), some (-(9 / 20)), some (-(3 / 20)), some 0]]
      = false := by decide
  have hproc : processPatch variance swath3 (2, 2) (0, 0)
      = some [[some (-(3 / 5) : ℚ), some (-(9 / 20)), some (-(3 / 20)), some 0]] := by
    simp only [processPatch]
    rw [hthr, hacc]
    have hnp' : normPatch variance swath3 (0, 0).1 (0, 0).2 (2, 2).1 (2, 2).2
        = [[some (-(3 / 5) : ℚ), some (-(9 / 20)), some (-(3 / 20)), some 0]] := hnp
    rw [hnp', hnn]
    simp
  have hcoords : patch_coords ("a", swath3).2.H ("a", swath3).2.W
      ((2, 2) : Nat × Nat).1 ((2, 2) : Nat × Nat).2
      ((1, 1) : Nat × Nat).1 ((1, 1) : Nat × Nat).2 = [(0, 0)] := by decide
  unfold gen_patches
  rw [List.flatMap_cons, List.flatMap_nil, hcoords]
  simp only [id_eq, List.filterMap_cons, List.filterMap_nil]
  rw [hproc]
  simp

/-- C5 witness: the patch yielded from `swath3` is NaN-free in every element. -/
theorem gen_patches_no_nan_witness :
    hasNan [[some (-(3 / 5) : ℚ), some (-(9 / 20)), some (-(3 / 20)), some 0]] = false
    ∧ ∀ ch ∈ [[some (-(3 / 5) : ℚ), some (-(9 / 20)), some (-(3 / 20)), some 0]],
        ∀ v ∈ ch, v.isSome = true :=
  gen_patches_no_nan variance id [("a", swath3)] (2, 2) (1, 1) "a" (0, 0)
    [[some (-(3 / 5) : ℚ), some (-(9 / 20)), some (-(3 / 20)), some 0]]
    (by rw [gen_patches_swath3_eval]; exact List.mem_singleton.mpr rfl)

/-- C6 witness: the patch yielded from `swath3` is the whitening of its
source slice and satisfies the reconstruction identity. -/
theorem gen_patches_normalization_witness :
    ∃ s : Swath, ("a", s) ∈ [("a", swath3)]
      ∧ [[some (-(3 / 5) : ℚ), some (-(9 / 20)), some (-(3 / 20)), some 0]]
          = normPatch variance s ((0, 0) : Nat × Nat).1 ((0, 0) : Nat × Nat).2
              ((2, 2) : Nat × Nat).1 ((2, 2) : Nat × Nat).2
      ∧ ∀ (c : Nat) (ch : List (Option ℚ)),
          [[some (-(3 / 5) : ℚ), some (-(9 / 20)), some (-(3 / 20)),
            some 0]][c]? = some ch →
          ∀ (k : Nat) (w : ℚ), ch[k]? = some (some w) →
            variance (channelList s c) ≠ 0
            ∧ ∃ v, (patchChannel s ((0, 0) : Nat × Nat).1 ((0, 0) : Nat × Nat).2
                  ((2, 2) : Nat × Nat).1 ((2, 2) : Nat × Nat).2 c)[k]? = some v
                ∧ w = (v - qmean (channelList s c)) / variance (channelList s c)
                ∧ w * variance (channelList s c) + qmean (channelList s c) = v :=
  gen_patches_normalization variance id [("a", swath3)] (2, 2) (1, 1) "a" (0, 0)
    [[some (-(3 / 5) : ℚ), some (-(9 / 20)), some (-(3 / 20)), some 0]]
    (by rw [gen_patches_swath3_eval]; exact List.mem_singleton.mpr rfl)

/-! C8.  End-to-end scenario: one 256x256x2 swath with pairwise distinct
values per channel, 64x64 patches, 64x64 strides, 4 patches per record,
one worker of rank 0. -/

/-- A 256x256x2 swath whose pixel values are pairwise distinct within each
channel (and in fact globally). -/
def swath256 : Swath :=
  ⟨256, 256, 2, fun i j c => ((257 * i + j + 100000 * c : Nat) : ℚ)⟩

/-- A pixel of the swath is a member of its channel's value list. -/
theorem mem_channelList (s : Swath) (i j c : Nat) (hi : i < s.H) (hj : j < s.W) :
    s.data i j c ∈ channelList s c := by
  unfold channelList
  rw [List.mem_flatMap]
  exact ⟨i, List.mem_range.mpr hi, List.mem_map.mpr ⟨j, List.mem_range.mpr hj, rfl⟩⟩

/-- A list whose squared deviations from `m` sum to zero is constantly `m`. -/
theorem list_sum_sq_zero {m : ℚ} : ∀ l : List ℚ,
    (l.map (fun v => (v - m) ^ 2)).sum = 0 → ∀ v ∈ l, v = m := by
  intro l
  induction l with
  | nil => intro _ v hv; exact absurd hv (List.not_mem_nil v)
  | cons a l ih =>
    intro hsum v hv
    rw [List.map_cons, List.sum_cons] at hsum
    have h1 : (0 : ℚ) ≤ (a - m) ^ 2 := sq_nonneg _
    have h2 : (0 : ℚ) ≤ (l.map (fun v => (v - m) ^ 2)).sum := by
      apply List.sum_nonneg
      rintro x hx
      rw [List.mem_map] at hx
      obtain ⟨u, _, rfl⟩ := hx
      exact sq_nonneg _
    have ha : (a - m) ^ 2 = 0 := by linarith
    have hrest : (l.map (fun v => (v - m) ^ 2)).sum = 0 := by linarith
    rcases List.mem_cons.mp hv with rfl | hv'
    · exact sub_eq_zero.mp ((pow_eq_zero_iff (two_ne_zero)).mp ha)
    · exact ih hrest v hv'

/-- A list containing two distinct values has nonzero variance. -/
theorem variance_ne_zero_of_two {l : List ℚ} {a b : ℚ} (ha : a ∈ l) (hb : b ∈ l)
    (hab : a ≠ b) : variance l ≠ 0 := by
  intro h0
  unfold variance at h0
  have hlen : ((l.length : ℚ)) ≠ 0 := by
    rw [Nat.cast_ne_zero]
    have : l ≠ [] := by rintro rfl; exact absurd ha (List.not_mem_nil a)
    have hp := List.length_pos.mpr this
    omega
  rcases div_eq_zero_iff.mp h0 with hsum | hlen'
  · have hconst := list_sum_sq_zero l hsum
    exact hab ((hconst a ha).trans (hconst b hb).symm)
  · exact hlen hlen'

/-- The channel of a patch has `ph * pw` pixels. -/
theorem patchChannel_length (s : Swath) (x y ph pw c : Nat) :
    (patchChannel s x y ph pw c).length = ph * pw := by
  unfold patchChannel
  rw [List.length_flatMap]
  rw [List.map_congr_left (g := fun _ => pw) (fun i _ => by simp)]
  rw [List.map_const', List.sum_replicate, List.length_range, smul_eq_mul]

/-- When the pixel values of a patch channel are pairwise distinct as a
function of the in-patch offsets, the channel's value list has no
duplicates. -/
theorem patchChannel_nodup (s : Swath) (x y ph pw c : Nat)
    (hinj : ∀ i₁ j₁ i₂ j₂, i₁ < ph → j₁ < pw → i₂ < ph → j₂ < pw →
      s.data (x + i₁) (y + j₁) c = s.data (x + i₂) (y + j₂) c →
      i₁ = i₂ ∧ j₁ = j₂) :
    (patchChannel s x y ph pw c).Nodup := by
  unfold patchChannel
  rw [List.nodup_flatMap]
  constructor
  · intro i hi
    rw [List.mem_range] at hi
    apply List.Nodup.map_on ?_ (List.nodup_range pw)
    intro j₁ hj₁ j₂ hj₂ heq
    rw [List.mem_range] at hj₁ hj₂
    exact (hinj i j₁ i j₂ hi hj₁ hi hj₂ heq).2
  · apply List.Pairwise.imp_of_mem ?_ (List.pairwise_lt_range ph)
    intro i₁ i₂ h₁ h₂ hlt
    rw [List.mem_range] at h₁ h₂
    intro v hv₁ hv₂
    rw [List.mem_map] at hv₁ hv₂
    obtain ⟨j₁, hj₁, rfl⟩ := hv₁
    obtain ⟨j₂, hj₂, heq⟩ := hv₂
    rw [List.mem_range] at hj₁ hj₂
    have := (hinj i₂ j₂ i₁ j₁ h₂ hj₂ h₁ hj₁ heq).1
    omega

/-- Distinctness of the `swath256` pixels inside any 64x64 window. -/
theorem swath256_inj (x y c : Nat) :
    ∀ i₁ j₁ i₂ j₂, i₁ < 64 → j₁ < 64 → i₂ < 64 → j₂ < 64 →
      swath256.data (x + i₁) (y + j₁) c = swath256.data (x + i₂) (y + j₂) c →
      i₁ = i₂ ∧ j₁ = j₂ := by
  intro i₁ j₁ i₂ j₂ h₁ h₂ h₃ h₄ heq
  simp only [swath256] at heq
  have heq' : 257 * (x + i₁) + (y + j₁) + 100000 * c
      = 257 * (x + i₂) + (y + j₂) + 100000 * c := by
    exact_mod_cast heq
  omega

/-- The cloud filter accepts every 64x64 patch of `swath256`: channel 0 has
4096 pairwise distinct values, so its most frequent value occurs once, far
below the threshold 2048. -/
theorem has_clouds_swath256 (x y : Nat) :
    has_clouds ((List.range swath256.C).map
        (fun c => patchChannel swath256 x y 64 64 c))
      (((64 * 64 : Nat) : ℚ) * (1 / 2)) = true := by
  unfold has_clouds
  rw [List.any_eq_true]
  refine ⟨patchChannel swath256 x y 64 64 0,
    List.mem_map.mpr ⟨0, List.mem_range.mpr (by decide), rfl⟩, ?_⟩
  rw [decide_eq_true_eq]
  have hnd : (patchChannel swath256 x y 64 64 0).Nodup :=
    patchChannel_nodup swath256 x y 64 64 0 (swath256_inj x y 0)
  have hne : patchChannel swath256 x y 64 64 0 ≠ [] := by
    apply List.ne_nil_of_length_pos
    rw [patchChannel_length]
    norm_num
  rw [max_uniq_nodup _ hnd hne]
  norm_num

/-- No 64x64 patch of `swath256` normalises to a NaN: every channel of the
swath contains two distinct values, so its variance, and hence its modelled
standard deviation, is nonzero. -/
theorem no_nan_swath256 (stdFn : List ℚ → ℚ)
    (hstd : ∀ l, stdFn l = 0 ↔ variance l = 0) (x y : Nat) :
    hasNan (normPatch stdFn swath256 x y 64 64) = false := by
  unfold hasNan
  rw [List.any_eq_false]
  intro ch hch
  unfold normPatch at hch
  rw [List.mem_map] at hch
  obtain ⟨c, hcr, rfl⟩ := hch
  rw [Bool.not_eq_true, List.any_eq_false]
  intro v hv
  rw [List.mem_map] at hv
  obtain ⟨u, hu, rfl⟩ := hv
  have hstdne : stdFn (channelList swath256 c) ≠ 0 := by
    rw [Ne, hstd]
    have hd : swath256.data 0 0 c ≠ swath256.data 0 1 c := by
      have : ¬((257 * 0 + 0 + 100000 * c : Nat) : ℚ)
          = ((257 * 0 + 1 + 100000 * c : Nat) : ℚ) := by
        rw [Nat.cast_inj]
        omega
      exact this
    exact variance_ne_zero_of_two
      (mem_channelList swath256 0 0 c (by norm_num [swath256]) (by norm_num [swath256]))
      (mem_channelList swath256 0 1 c (by norm_num [swath256]) (by norm_num [swath256]))
      hd
  unfold whiten
  rw [if_neg hstdne]
  simp

/-- Every candidate patch of `swath256` survives both filters and yields its
normalised patch. -/
theorem processPatch_swath256 (stdFn : List ℚ → ℚ)
    (hstd : ∀ l, stdFn l = 0 ↔ variance l = 0) (x y : Nat) :
    processPatch stdFn swath256 (64, 64) (x, y)
      = some (normPatch stdFn swath256 x y 64 64) := by
  simp only [processPatch]
  rw [has_clouds_swath256 x y]
  rw [no_nan_swath256 stdFn hstd x y]
  simp

/-- When every element of a list maps to `some`, `filterMap` keeps the whole
list. -/
theorem length_filterMap_of_isSome {α β : Type} (f : α → Option β) :
    ∀ l : List α, (∀ a ∈ l, (f a).isSome = true) → (l.filterMap f).length = l.length := by
  intro l
  induction l with
  | nil => intro _; rfl
  | cons a l ih =>
    intro h
    rw [List.filterMap_cons]
    cases hfa : f a with
    | none =>
      have := h a (List.mem_cons_self a l)
      rw [hfa] at this
      simp at this
    | some b =>
      rw [List.length_cons, ih (fun x hx => h x (List.mem_cons_of_mem a hx)),
        List.length_cons]

/-- C8: for the 256x256x2 swath with pairwise distinct finite values,
64x64 patches, 64x64 strides, 4 patches per record and a single worker of
rank 0: the candidate coordinates are exactly the nine grid points with
offsets in 0, 64, 128 on each axis (192 + 64 = 256 fails the strict bound),
all nine candidates are accepted and yielded, and exactly three shards are
written, named (0,0), (0,1) and (0,2), holding 4, 4 and 1 patches. -/
theorem end_to_end_256 (stdFn : List ℚ → ℚ)
    (hstd : ∀ l, stdFn l = 0 ↔ variance l = 0)
    (perm : List (Nat × Nat) → List (Nat × Nat))
    (hperm : ∀ l, (perm l).Perm l) :
    patch_coords 256 256 64 64 64 64
      = [(0, 0), (0, 64), (0, 128), (64, 0), (64, 64), (64, 128),
         (128, 0), (128, 64), (128, 128)]
    ∧ (gen_patches stdFn perm [("swath", swath256)] (64, 64) (64, 64)).length = 9
    ∧ (write_patches 0 4
          (gen_patches stdFn perm [("swath", swath256)] (64, 64) (64, 64))).map
        (fun sh => (sh.1, sh.2.length))
        = [((0, 0), 4), ((0, 1), 4), ((0, 2), 1)] := by
  have hcoords : patch_coords 256 256 64 64 64 64
      = [(0, 0), (0, 64), (0, 128), (64, 0), (64, 64), (64, 128),
         (128, 0), (128, 64), (128, 128)] := by decide
  have hgen : gen_patches stdFn perm [("swath", swath256)] (64, 64) (64, 64)
      = (perm (patch_coords swath256.H swath256.W 64 64 64 64)).filterMap
          (fun xy => (processPatch stdFn swath256 (64, 64) xy).map
            (fun p => ("swath", xy, p))) := by
    unfold gen_patches
    simp only [List.flatMap_cons, List.flatMap_nil, List.append_nil]
  have hall : ∀ xy ∈ perm (patch_coords swath256.H swath256.W 64 64 64 64),
      ((processPatch stdFn swath256 (64, 64) xy).map
        (fun p => (("swath" : String), xy, p))).isSome = true := by
    intro xy _
    obtain ⟨x, y⟩ := xy
    rw [processPatch_swath256 stdFn hstd x y]
    rfl
  have h9 : (gen_patches stdFn perm [("swath", swath256)] (64, 64) (64, 64)).length
      = 9 := by
    rw [hgen, length_filterMap_of_isSome _ _ hall, (hperm _).length_eq]
    rw [show swath256.H = 256 from rfl, show swath256.W = 256 from rfl, hcoords]
    rfl
  refine ⟨hcoords, h9, ?_⟩
  rw [write_patches_closed_form 0 4 (by norm_num)
    (gen_patches stdFn perm [("swath", swath256)] (64, 64) (64, 64))]
  rw [List.map_map, h9]
  have h3 : (9 + 4 - 1) / 4 = 3 := by norm_num
  rw [h3, show List.range 3 = [0, 1, 2] from rfl]
  simp only [List.map_cons, List.map_nil, Function.comp_apply, List.length_take,
    List.length_drop, h9]
  decide

/-- C8 witness: the end-to-end scenario with the identity shuffle and the
variance itself as standard-deviation model. -/
theorem end_to_end_256_witness :
    patch_coords 256 256 64 64 64 64
      = [(0, 0), (0, 64), (0, 128), (64, 0), (64, 64), (64, 128),
         (128, 0), (128, 64), (128, 128)]
    ∧ (gen_patches variance id [("swath", swath256)] (64, 64) (64, 64)).length = 9
    ∧ (write_patches 0 4
          (gen_patches variance id [("swath", swath256)] (64, 64) (64, 64))).map
        (fun sh => (sh.1, sh.2.length))
        = [((0, 0), 4), ((0, 1), 4), ((0, 2), 1)] :=
  end_to_end_256 variance (fun _ => Iff.rfl) id (fun l => List.Perm.refl l)
